import Mathlib

/-!
Verification of the directive-based log-filtering engine of `src/lib/src/logging.rs`
(levels, filters, the `Logger::enabled` matcher, and `parse_logging_spec`),
as a shallow embedding: Rust `&str` values are `List Char`, iterator-style
loops become structural recursion, and printed diagnostics are collected in a
list of `Warning` values.
-/

namespace Sozu

/-- Rust strings (`&str`) are modelled as lists of characters. -/
abbrev Str := List Char

/-- Helper to write string literals as `Str`. -/
def str (s : String) : Str := s.toList

/-- `enum LogLevel` (`#[repr(usize)]`, discriminants starting at 1). -/
inductive LogLevel
  | Error
  | Warn
  | Info
  | Debug
  | Trace
deriving DecidableEq, Repr, Inhabited, Fintype

/-- `*self as usize` for `LogLevel` (discriminants 1..5 per the source). -/
def LogLevel.toUsize : LogLevel → Nat
  | .Error => 1
  | .Warn => 2
  | .Info => 3
  | .Debug => 4
  | .Trace => 5

/-- `LogLevel::from_usize`. -/
def LogLevel.from_usize : Nat → Option LogLevel
  | 1 => some .Error
  | 2 => some .Warn
  | 3 => some .Info
  | 4 => some .Debug
  | 5 => some .Trace
  | _ => none

/-- `LogLevel::max()`. -/
def LogLevel.max : LogLevel := .Trace

/-- `enum LogLevelFilter` (`#[repr(usize)]`, `Off` is 0). -/
inductive LogLevelFilter
  | Off
  | Error
  | Warn
  | Info
  | Debug
  | Trace
deriving DecidableEq, Repr, Inhabited, Fintype

/-- `*self as usize` for `LogLevelFilter` (discriminants 0..5). -/
def LogLevelFilter.toUsize : LogLevelFilter → Nat
  | .Off => 0
  | .Error => 1
  | .Warn => 2
  | .Info => 3
  | .Debug => 4
  | .Trace => 5

/-- `LogLevelFilter::from_usize`. -/
def LogLevelFilter.from_usize : Nat → Option LogLevelFilter
  | 0 => some .Off
  | 1 => some .Error
  | 2 => some .Warn
  | 3 => some .Info
  | 4 => some .Debug
  | 5 => some .Trace
  | _ => none

/-- `LogLevelFilter::max()`. -/
def LogLevelFilter.max : LogLevelFilter := .Trace

/-- `impl Ord for LogLevel`: `(*self as usize).cmp(&(*other as usize))`. -/
def LogLevel.cmpLevel (a b : LogLevel) : Ordering := compare a.toUsize b.toUsize

/-- `impl PartialOrd for LogLevel`: `Some(self.cmp(other))`. -/
def LogLevel.partialCmpLevel (a b : LogLevel) : Option Ordering := some (a.cmpLevel b)

/-- `impl PartialOrd<LogLevelFilter> for LogLevel`:
`Some((*self as usize).cmp(&(*other as usize)))`. -/
def LogLevel.partialCmpFilter (a : LogLevel) (f : LogLevelFilter) : Option Ordering :=
  some (compare a.toUsize f.toUsize)

/-- `impl PartialOrd<LogLevel> for LogLevelFilter`:
`other.partial_cmp(self).map(|x| x.reverse())`. -/
def LogLevelFilter.partialCmpLevel (f : LogLevelFilter) (a : LogLevel) : Option Ordering :=
  (a.partialCmpFilter f).map Ordering.swap

/-- Rust's derived `<=` on a `PartialOrd` pair:
`matches!(partial_cmp, Some(Less) | Some(Equal))`. -/
def leOfPartialCmp : Option Ordering → Bool
  | some .lt => true
  | some .eq => true
  | _ => false

/-- `a <= b` for two `LogLevel`s. -/
def LogLevel.leLevel (a b : LogLevel) : Bool := leOfPartialCmp (a.partialCmpLevel b)

/-- `meta.level <= directive.level`: `LogLevel` vs `LogLevelFilter`. -/
def LogLevel.leFilter (a : LogLevel) (f : LogLevelFilter) : Bool :=
  leOfPartialCmp (a.partialCmpFilter f)

/-- `f <= a` for a `LogLevelFilter` against a `LogLevel`. -/
def LogLevelFilter.leLevel (f : LogLevelFilter) (a : LogLevel) : Bool :=
  leOfPartialCmp (f.partialCmpLevel a)

/-- `LogLevel::to_log_level_filter`:
`LogLevelFilter::from_usize(*self as usize).unwrap()` (the `unwrap` is
modelled by `Option.get!`, which falls back to the default on `none`). -/
def LogLevel.to_log_level_filter (l : LogLevel) : LogLevelFilter :=
  (LogLevelFilter.from_usize l.toUsize).get!

/-- `LogLevelFilter::to_log_level`: `LogLevel::from_usize(*self as usize)`. -/
def LogLevelFilter.to_log_level (f : LogLevelFilter) : Option LogLevel :=
  LogLevel.from_usize f.toUsize

/-- `static LOG_LEVEL_NAMES`. -/
def LOG_LEVEL_NAMES : List Str :=
  [str "OFF", str "ERROR", str "WARN", str "INFO", str "DEBUG", str "TRACE"]

/-- ASCII case folding of one character (Rust `to_ascii_lowercase`). -/
def asciiLower (c : Char) : Char :=
  if 'A' ≤ c ∧ c ≤ 'Z' then Char.ofNat (c.toNat + 32) else c

/-- Rust `str::eq_ignore_ascii_case`: equal lengths and pairwise
ASCII-case-insensitive equality, i.e. equality of the case-folded strings. -/
def eqIgnoreAsciiCase (a b : Str) : Bool := a.map asciiLower == b.map asciiLower

/-- Rust `Iterator::position`. -/
def position (p : α → Bool) : List α → Option Nat
  | [] => none
  | x :: xs => if p x then some 0 else (position p xs).map (· + 1)

/-- Decidable equality on `Except`, so that concrete parse results can be
checked by `decide`. -/
def exceptDecEq [DecidableEq ε] [DecidableEq α] : DecidableEq (Except ε α)
  | .error e, .error f =>
    if h : e = f then isTrue (by rw [h])
    else isFalse (by intro hh; cases hh; exact h rfl)
  | .error _, .ok _ => isFalse Except.noConfusion
  | .ok _, .error _ => isFalse Except.noConfusion
  | .ok a, .ok b =>
    if h : a = b then isTrue (by rw [h])
    else isFalse (by intro hh; cases hh; exact h rfl)

instance [DecidableEq ε] [DecidableEq α] : DecidableEq (Except ε α) := exceptDecEq

/-- `fn ok_or`. -/
def ok_or (t : Option α) (e : ε) : Except ε α :=
  match t with
  | some t => .ok t
  | none => .error e

/-- `impl FromStr for LogLevelFilter`: position of the case-insensitive match
in `LOG_LEVEL_NAMES`, mapped through `from_usize(..).unwrap()`. -/
def LogLevelFilter.from_str (level : Str) : Except Unit LogLevelFilter :=
  ok_or ((position (fun name => eqIgnoreAsciiCase name level) LOG_LEVEL_NAMES).map
    (fun p => (LogLevelFilter.from_usize p).get!)) ()

/-- `struct LogDirective`. -/
structure LogDirective where
  name : Option Str
  level : LogLevelFilter
deriving DecidableEq, Repr

/-- `struct LogMetadata`. -/
structure LogMetadata where
  level : LogLevel
  target : Str

/-- The loop body of `Logger::enabled`, running over an already-reversed
directive list: a directive with a name that is not a prefix of the target is
skipped; the first remaining directive decides `meta.level <= directive.level`;
an exhausted list yields `false`. -/
def enabledLoop (meta : LogMetadata) : List LogDirective → Bool
  | [] => false
  | d :: rest =>
    match d.name with
    | some name =>
      if !(name.isPrefixOf meta.target) then enabledLoop meta rest
      else meta.level.leFilter d.level
    | none => meta.level.leFilter d.level

/-- The write side of a backend (`Stdout`, `Unix`, `Udp`, `Tcp` all expose a
fallible line write). `attempts` records every line handed to the backend,
`written` the lines it accepted; `failing` is the environment's choice of
whether writes currently fail (an I/O error). -/
structure BackendState where
  attempts : List Str
  written : List Str
  failing : Bool
deriving DecidableEq, Repr

/-- One backend write (`write_fmt` / `send` / `send_to`): always attempted,
recorded in `written` only on success, and yielding the `io::Result`. -/
def BackendState.write (b : BackendState) (line : Str) : BackendState × Except Unit Unit :=
  if b.failing then ({ b with attempts := b.attempts ++ [line] }, .error ())
  else ({ b with attempts := b.attempts ++ [line], written := b.written ++ [line] }, .ok ())

/-- `struct Logger`. -/
structure Logger where
  directives : List LogDirective
  backend : BackendState
  tag : Str
  pid : Int

/-- `Logger::new()`: a single catch-all directive at `Error`, stdout backend,
tag `"SOZU"`, pid 0. -/
def Logger.new : Logger :=
  { directives := [{ name := none, level := .Error }]
    backend := { attempts := [], written := [], failing := false }
    tag := str "SOZU"
    pid := 0 }

/-- `Logger::set_directives`. -/
def Logger.set_directives (lg : Logger) (directives : List LogDirective) : Logger :=
  { lg with directives := directives }

/-- `Logger::enabled`: the `for directive in self.directives.iter().rev()`
loop. -/
def Logger.enabled (lg : Logger) (meta : LogMetadata) : Bool :=
  enabledLoop meta lg.directives.reverse

/-- `Logger::log`: if the metadata is enabled, hand the rendered line to the
backend; the backend's `io::Result` is bound and discarded (`stdout.write_fmt(args);`
is a statement whose value is dropped), so the caller sees only the updated
logger, never an error. -/
def Logger.log (lg : Logger) (meta : LogMetadata) (args : Str) : Logger :=
  if lg.enabled meta then
    let res := lg.backend.write args
    { lg with backend := res.1 }
  else lg

/-- The diagnostics `parse_logging_spec` prints with `println!`. -/
inductive Warning
  | tooManySlashes (spec : Str)
  | invalidLevel (part1 : Str)
  | invalidClause (s : Str)
deriving DecidableEq, Repr

/-- Rust `str::split(char)`: the list of separator-delimited pieces; it is
never empty, and splitting the empty string yields `[[]]`. -/
def splitOnChar (c : Char) : List Char → List (List Char)
  | [] => [[]]
  | x :: xs =>
    if x = c then [] :: splitOnChar c xs
    else
      match splitOnChar c xs with
      | [] => [[x]]
      | y :: ys => (x :: y) :: ys

/-- Rust `str::trim_start` restricted to the ASCII whitespace the spec strings
can contain (`Char.isWhitespace` covers space, tab, CR, LF). -/
def trimStart (s : Str) : Str := s.dropWhile Char.isWhitespace

/-- Rust `str::trim`: drop whitespace from both ends. -/
def trim (s : Str) : Str := ((trimStart s).reverse.dropWhile Char.isWhitespace).reverse

/-- The outcome of one iteration of the clause loop in `parse_logging_spec`. -/
inductive ClauseResult
  | empty
  | dir (d : LogDirective)
  | bad (w : Warning)
deriving DecidableEq, Repr

/-- One iteration of `for s in m.split(',')` in `parse_logging_spec`:
empty clauses are skipped (`continue`); otherwise the clause is split on `=`
and the `(parts.next(), parts.next().map(|s| s.trim()), parts.next())` match
decides between a directive and a printed diagnostic. -/
def parse_clause (s : Str) : ClauseResult :=
  if s.length = 0 then .empty
  else
    let parts := splitOnChar '=' s
    match parts.get? 0, (parts.get? 1).map trim, parts.get? 2 with
    | some part0, none, none =>
      match LogLevelFilter.from_str part0 with
      | .ok num => .dir { name := none, level := num }
      | .error _ => .dir { name := some part0, level := LogLevelFilter.max }
    | some part0, some part1, none =>
      if part1 = [] then .dir { name := some part0, level := LogLevelFilter.max }
      else
        match LogLevelFilter.from_str part1 with
        | .ok num => .dir { name := some part0, level := num }
        | .error _ => .bad (.invalidLevel part1)
    | _, _, _ => .bad (.invalidClause s)

/-- The whole clause loop: directives are pushed in clause order, diagnostics
are collected in order. -/
def processClauses : List Str → List LogDirective × List Warning
  | [] => ([], [])
  | s :: rest =>
    let r := processClauses rest
    match parse_clause s with
    | .empty => r
    | .dir d => (d :: r.1, r.2)
    | .bad w => (r.1, w :: r.2)

/-- `mods.map(|m| for s in m.split(',') ...)`: process the module segment. -/
def processMods (m : Str) : List LogDirective × List Warning :=
  processClauses (splitOnChar ',' m)

/-- `parse_logging_spec`: split on `/`; `mods` is the first piece, the second
is discarded, and the presence of a third piece aborts with a diagnostic and
an empty directive list. -/
def parse_logging_spec (spec : Str) : List LogDirective × List Warning :=
  let parts := splitOnChar '/' spec
  if (parts.get? 2).isSome then ([], [.tooManySlashes spec])
  else
    match parts.get? 0 with
    | some m => processMods m
    | none => ([], [])

theorem splitOnChar_ne_nil (c : Char) (s : Str) : splitOnChar c s ≠ [] := by
  induction s with
  | nil => simp [splitOnChar]
  | cons x xs ih =>
    simp only [splitOnChar]
    split
    · simp
    · cases h : splitOnChar c xs with
      | nil => simp
      | cons y ys => simp [h]

theorem splitOnChar_of_not_mem (c : Char) (s : Str) (h : c ∉ s) : splitOnChar c s = [s] := by
  induction s with
  | nil => rfl
  | cons x xs ih =>
    have hx : ¬(x = c) := fun hc => h (hc ▸ List.mem_cons_self x xs)
    have hxs : c ∉ xs := fun hc => h (List.mem_cons_of_mem x hc)
    simp [splitOnChar, hx, ih hxs]

theorem splitOnChar_append_sep (c : Char) (a b : Str) (h : c ∉ a) :
    splitOnChar c (a ++ c :: b) = a :: splitOnChar c b := by
  induction a with
  | nil => simp [splitOnChar]
  | cons x xs ih =>
    have hx : ¬(x = c) := fun hc => h (hc ▸ List.mem_cons_self x xs)
    have hxs : c ∉ xs := fun hc => h (List.mem_cons_of_mem x hc)
    simp [splitOnChar, hx, ih hxs]

theorem splitOnChar_length (c : Char) (s : Str) :
    (splitOnChar c s).length = s.count c + 1 := by
  induction s with
  | nil => simp [splitOnChar]
  | cons x xs ih =>
    simp only [splitOnChar]
    by_cases hx : x = c
    · simp only [hx, if_pos rfl, List.length_cons, List.count_cons]
      simp only [beq_self_eq_true, if_pos, List.length_cons]
      omega
    · cases h : splitOnChar c xs with
      | nil => exact absurd h (splitOnChar_ne_nil c xs)
      | cons y ys =>
        rw [h] at ih
        simp only [if_neg hx, h, List.length_cons] at ih ⊢
        have hxc : (x == c) = false := by simp [hx]
        simp [List.count_cons, hxc]
        omega

theorem splitOnChar_get_zero (c : Char) (s : Str) :
    (splitOnChar c s).get? 0 = some (s.takeWhile (fun x => x != c)) := by
  induction s with
  | nil => rfl
  | cons x xs ih =>
    simp only [splitOnChar]
    by_cases hx : x = c
    · simp [hx, List.takeWhile]
    · cases h : splitOnChar c xs with
      | nil => exact absurd h (splitOnChar_ne_nil c xs)
      | cons y ys =>
        rw [h] at ih
        simp only [List.get?] at ih
        have hxc : (x != c) = true := by simp [hx]
        simp only [if_neg hx, List.takeWhile, hxc]
        simp only [List.get?, Option.some.injEq] at ih ⊢
        rw [ih]

theorem position_eq_none (p : α → Bool) (l : List α) (h : ∀ x ∈ l, p x = false) :
    position p l = none := by
  induction l with
  | nil => rfl
  | cons x xs ih =>
    have hx := h x (List.mem_cons_self x xs)
    simp [position, hx, ih fun y hy => h y (List.mem_cons_of_mem x hy)]

theorem position_congr (p q : α → Bool) (l : List α) (h : ∀ x ∈ l, p x = q x) :
    position p l = position q l := by
  induction l with
  | nil => rfl
  | cons x xs ih =>
    have hx := h x (List.mem_cons_self x xs)
    simp [position, hx, ih fun y hy => h y (List.mem_cons_of_mem x hy)]

theorem from_str_nil : LogLevelFilter.from_str [] = .error () := by decide

theorem parse_clause_name_level (name lvl : Str) (hn : '=' ∉ name) (hl : '=' ∉ lvl) :
    parse_clause (name ++ '=' :: lvl) =
      (if trim lvl = [] then .dir ⟨some name, LogLevelFilter.max⟩
       else
        match LogLevelFilter.from_str (trim lvl) with
        | .ok num => .dir ⟨some name, num⟩
        | .error _ => .bad (.invalidLevel (trim lvl))) := by
  have hs : splitOnChar '=' (name ++ '=' :: lvl) = [name, lvl] := by
    rw [splitOnChar_append_sep '=' name lvl hn, splitOnChar_of_not_mem '=' lvl hl]
  have hlen : ¬((name ++ '=' :: lvl).length = 0) := by simp
  simp only [parse_clause, if_neg hlen, hs, List.get?, Option.map]

theorem parse_clause_bare (tok : Str) (h0 : tok ≠ []) (h : '=' ∉ tok) :
    parse_clause tok =
      (match LogLevelFilter.from_str tok with
       | .ok num => .dir ⟨none, num⟩
       | .error _ => .dir ⟨some tok, LogLevelFilter.max⟩) := by
  have hs : splitOnChar '=' tok = [tok] := splitOnChar_of_not_mem '=' tok h
  have hlen : ¬(tok.length = 0) := by simpa using h0
  simp only [parse_clause, if_neg hlen, hs, List.get?, Option.map]


theorem parse_clause_multi_eq (tok : Str) (h : 2 ≤ tok.count '=') :
    parse_clause tok = .bad (.invalidClause tok) := by
  have h0 : tok ≠ [] := by
    intro he
    rw [he] at h
    simp [List.count] at h
  have hlen : ¬(tok.length = 0) := by simpa using h0
  have hlen3 : 3 ≤ (splitOnChar '=' tok).length := by
    rw [splitOnChar_length]
    omega
  obtain ⟨x, hx⟩ : ∃ x, (splitOnChar '=' tok).get? 0 = some x := by
    cases hg : (splitOnChar '=' tok).get? 0 with
    | none => have := List.get?_eq_none.mp hg; omega
    | some x => exact ⟨x, rfl⟩
  obtain ⟨y, hy⟩ : ∃ y, (splitOnChar '=' tok).get? 1 = some y := by
    cases hg : (splitOnChar '=' tok).get? 1 with
    | none => have := List.get?_eq_none.mp hg; omega
    | some y => exact ⟨y, rfl⟩
  obtain ⟨z, hz⟩ : ∃ z, (splitOnChar '=' tok).get? 2 = some z := by
    cases hg : (splitOnChar '=' tok).get? 2 with
    | none => have := List.get?_eq_none.mp hg; omega
    | some z => exact ⟨z, rfl⟩
  simp only [parse_clause, if_neg hlen, hx, hy, hz, Option.map]

theorem parse_clause_bad_shape (s : Str) (w : Warning) (h : parse_clause s = .bad w) :
    (∃ p, w = .invalidLevel p) ∨ w = .invalidClause s := by
  by_cases h0 : s.length = 0
  · simp [parse_clause, h0] at h
  · simp only [parse_clause, if_neg h0] at h
    split at h
    · split at h <;> simp_all
    · split at h
      · simp_all
      · split at h
        · simp_all
        · injection h with h2
          exact Or.inl ⟨_, h2.symm⟩
    · right
      simp_all

/-- The directive one clause contributes to the result, if any. -/
def clauseDirective (s : Str) : Option LogDirective :=
  match parse_clause s with
  | .dir d => some d
  | _ => none

/-- The diagnostic one clause emits, if any. -/
def clauseWarning (s : Str) : Option Warning :=
  match parse_clause s with
  | .bad w => some w
  | _ => none

theorem processClauses_eq_filterMap (cs : List Str) :
    processClauses cs = (cs.filterMap clauseDirective, cs.filterMap clauseWarning) := by
  induction cs with
  | nil => rfl
  | cons s rest ih =>
    cases h : parse_clause s <;>
      simp [processClauses, List.filterMap_cons, clauseDirective, clauseWarning, h, ih]

theorem tooMany_not_mem_processMods (m spec : Str) :
    Warning.tooManySlashes spec ∉ (processMods m).2 := by
  unfold processMods
  rw [processClauses_eq_filterMap]
  simp only [List.mem_filterMap, not_exists, not_and]
  intro s hs hw
  unfold clauseWarning at hw
  cases h : parse_clause s with
  | bad w =>
    rw [h] at hw
    simp only [Option.some.injEq] at hw
    rcases parse_clause_bad_shape s w h with ⟨p, hp⟩ | hp <;> simp [hp] at hw
  | empty => rw [h] at hw; exact Option.noConfusion hw
  | dir d => rw [h] at hw; exact Option.noConfusion hw



theorem trim_cons_space (u : Str) : trim (' ' :: u) = trim u := by
  unfold trim trimStart
  rw [List.dropWhile_cons, if_pos (by decide : Char.isWhitespace ' ' = true)]

theorem trim_parts_of_eq_self (t : Str) (h : trim t = t) :
    trimStart t = t ∧ t.reverse.dropWhile Char.isWhitespace = t.reverse := by
  have h1 : (trimStart t).length ≤ t.length := (List.dropWhile_sublist _).length_le
  have h2 : ((trimStart t).reverse.dropWhile Char.isWhitespace).length
      ≤ (trimStart t).length := by
    have := (List.dropWhile_sublist
      (l := (trimStart t).reverse) Char.isWhitespace).length_le
    rwa [List.length_reverse] at this
  have hlen : (trim t).length = t.length := by rw [h]
  unfold trim at hlen
  rw [List.length_reverse] at hlen
  have e1 : (trimStart t).length = t.length := by omega
  have ht : trimStart t = t := (List.dropWhile_suffix _).eq_of_length e1
  refine ⟨ht, ?_⟩
  rw [ht] at hlen
  exact (List.dropWhile_suffix _).eq_of_length (by rw [List.length_reverse]; omega)

theorem trim_sandwich (t : Str) (h : trim t = t) : trim (' ' :: (t ++ [' '])) = t := by
  obtain ⟨h1, h2⟩ := trim_parts_of_eq_self t h
  cases t with
  | nil => decide
  | cons a t' =>
    have ha : Char.isWhitespace a = false := by
      by_contra hws
      rw [Bool.not_eq_false] at hws
      unfold trimStart at h1
      rw [List.dropWhile_cons, if_pos hws] at h1
      have hle : (t'.dropWhile Char.isWhitespace).length ≤ t'.length :=
        (List.dropWhile_sublist _).length_le
      have : (t'.dropWhile Char.isWhitespace).length = t'.length + 1 := by
        rw [h1]; rfl
      omega
    rw [trim_cons_space]
    unfold trim trimStart
    rw [List.cons_append, List.dropWhile_cons, if_neg (by simp [ha])]
    rw [← List.cons_append, List.reverse_append, List.reverse_singleton,
      List.singleton_append, List.dropWhile_cons,
      if_pos (by decide : Char.isWhitespace ' ' = true), h2, List.reverse_reverse]



theorem from_str_of_eqIgnore (tok : Str) (f : LogLevelFilter)
    (h : eqIgnoreAsciiCase (LOG_LEVEL_NAMES.getD f.toUsize []) tok = true) :
    LogLevelFilter.from_str tok = .ok f := by
  have hmap : (LOG_LEVEL_NAMES.getD f.toUsize []).map asciiLower = tok.map asciiLower := by
    simpa [eqIgnoreAsciiCase] using h
  have hcongr : position (fun name => eqIgnoreAsciiCase name tok) LOG_LEVEL_NAMES
      = position (fun name => eqIgnoreAsciiCase name (LOG_LEVEL_NAMES.getD f.toUsize []))
          LOG_LEVEL_NAMES := by
    apply position_congr
    intro x hx
    simp only [eqIgnoreAsciiCase]
    rw [← hmap]
  unfold LogLevelFilter.from_str
  rw [hcongr]
  cases f <;> decide

theorem from_str_of_no_match (tok : Str)
    (h : ∀ name ∈ LOG_LEVEL_NAMES, eqIgnoreAsciiCase name tok = false) :
    LogLevelFilter.from_str tok = .error () := by
  unfold LogLevelFilter.from_str
  rw [position_eq_none _ _ h]
  rfl


/-- Whether a directive applies to a target module: a named directive applies
when its name starts the target, a catch-all always applies. -/
def directiveMatches (d : LogDirective) (target : Str) : Bool :=
  match d.name with
  | some name => name.isPrefixOf target
  | none => true

/-- Modelled from the spec's words (§4.2): scan the directive list from the
last element to the first, stop at the first directive that applies and
compare severities there, and fail closed when none applies. -/
def enabledSpec (dirs : List LogDirective) (sev : LogLevel) (target : Str) : Bool :=
  match dirs.reverse.find? (fun d => directiveMatches d target) with
  | some d => sev.leFilter d.level
  | none => false

theorem enabledLoop_eq_find (meta : LogMetadata) (l : List LogDirective) :
    enabledLoop meta l =
      match l.find? (fun d => directiveMatches d meta.target) with
      | some d => meta.level.leFilter d.level
      | none => false := by
  induction l with
  | nil => rfl
  | cons d rest ih =>
    cases hn : d.name with
    | none => simp [enabledLoop, List.find?, directiveMatches, hn]
    | some name =>
      cases hp : name.isPrefixOf meta.target with
      | false => simpa [enabledLoop, List.find?, directiveMatches, hn, hp] using ih
      | true => simp [enabledLoop, List.find?, directiveMatches, hn, hp]

/-- **C1.** `Logger::enabled` scans the directive list from the last element
to the first, skipping directives whose module name does not start the event
module; at the first applicable directive (name starts the module, or no
name) it stops and returns `event severity <= directive filter`; an exhausted
scan (in particular an empty list) yields `false`. -/
theorem enabled_matches_backward_scan (dirs : List LogDirective) (b : BackendState)
    (tg : Str) (pid : Int) (sev : LogLevel) (target : Str) :
    Logger.enabled ⟨dirs, b, tg, pid⟩ ⟨sev, target⟩ = enabledSpec dirs sev target :=
  enabledLoop_eq_find ⟨sev, target⟩ dirs.reverse

/-- **C6.** `parse_logging_spec("a/b/c")` yields the empty directive list, and
against an empty directive list `Logger::enabled` is `false` for every event
severity and target module. -/
theorem spec_abc_empty_and_disabled :
    (parse_logging_spec (str "a/b/c")).1 = [] ∧
      ∀ (b : BackendState) (tg : Str) (pid : Int) (sev : LogLevel) (target : Str),
        Logger.enabled ⟨[], b, tg, pid⟩ ⟨sev, target⟩ = false :=
  ⟨by decide, fun _ _ _ _ _ => rfl⟩

/-- **C7.** The cross-type order between `LogLevel` and `LogLevelFilter` is
rank comparison: `Error <= Off` is false, `Error <= Error` is true, `<=` on
severities and the severity-vs-filter `<=` agree with `usize` rank order, and
the filter-vs-severity comparison is the exact reversal of the
severity-vs-filter comparison (hence agrees with rank order as well). -/
theorem level_filter_order_is_rank_order :
    LogLevel.Error.leFilter .Off = false ∧
    LogLevel.Error.leFilter .Error = true ∧
    (∀ a b : LogLevel, a.leLevel b = decide (a.toUsize ≤ b.toUsize)) ∧
    (∀ (a : LogLevel) (f : LogLevelFilter), a.leFilter f = decide (a.toUsize ≤ f.toUsize)) ∧
    (∀ (f : LogLevelFilter) (a : LogLevel),
      f.partialCmpLevel a = (a.partialCmpFilter f).map Ordering.swap) ∧
    (∀ (f : LogLevelFilter) (a : LogLevel), f.leLevel a = decide (f.toUsize ≤ a.toUsize)) := by
  refine ⟨rfl, rfl, ?_, ?_, ?_, ?_⟩ <;> decide

/-- **C8.** `Logger::log` hands the rendered line to the backend exactly when
the enable-check passes, and a backend write failure is swallowed: the write
result is discarded, the call returns an ordinary `Logger` in every case
(there is no error outcome in its type), and a failed write changes nothing
but the record of the attempt — directives, tag, pid and the failure flag are
untouched, and `written` grows only on an enabled, non-failing write. -/
theorem log_writes_iff_enabled_and_swallows_errors (lg : Logger) (meta : LogMetadata)
    (args : Str) :
    (Logger.log lg meta args).backend.attempts
        = lg.backend.attempts ++ (if lg.enabled meta then [args] else []) ∧
    (Logger.log lg meta args).backend.written
        = (if lg.enabled meta && !lg.backend.failing
            then lg.backend.written ++ [args] else lg.backend.written) ∧
    (Logger.log lg meta args).directives = lg.directives ∧
    (Logger.log lg meta args).tag = lg.tag ∧
    (Logger.log lg meta args).pid = lg.pid ∧
    (Logger.log lg meta args).backend.failing = lg.backend.failing := by
  unfold Logger.log BackendState.write
  cases he : lg.enabled meta <;> cases hf : lg.backend.failing <;> simp [he, hf]

/-- **C10.** `LogLevelFilter::to_log_level` is `none` exactly on `Off` and
otherwise the same-rank `LogLevel`; `LogLevel::to_log_level_filter` is total
(the `unwrap`ped `from_usize` lookup always succeeds) and the two conversions
round-trip on every `LogLevel`. -/
theorem to_log_level_round_trip :
    (∀ f : LogLevelFilter,
      f.to_log_level.map LogLevel.toUsize = if f = .Off then none else some f.toUsize) ∧
    (∀ l : LogLevel, (LogLevelFilter.from_usize l.toUsize).isSome = true) ∧
    (∀ l : LogLevel, l.to_log_level_filter.to_log_level = some l) := by
  refine ⟨?_, ?_, ?_⟩ <;> decide


/-- **C3 counterexample.** Parsing the integer-rank string `"0"` does not
return the corresponding filter `Off`: it is a parse failure, refuting the
claim that the integer-rank strings are accepted. -/
theorem from_str_rejects_rank_strings :
    LogLevelFilter.from_str (str "0") = .error () ∧
    ¬ LogLevelFilter.from_str (str "0") = .ok LogLevelFilter.Off := by decide

/-- **C3 (amended).** Level parsing is defined only for the filter type
(`FromStr for LogLevelFilter`); it accepts exactly the case-insensitive names
`OFF, ERROR, WARN, INFO, DEBUG, TRACE`, returning the corresponding filter,
and returns the typed failure `Err(())` (never a panic) on every other token,
including the integer-rank strings `"0"` through `"5"`. -/
theorem from_str_accepted_tokens :
    (∀ f : LogLevelFilter,
      LogLevelFilter.from_str (LOG_LEVEL_NAMES.getD f.toUsize []) = .ok f) ∧
    (∀ (tok : Str) (f : LogLevelFilter),
      eqIgnoreAsciiCase (LOG_LEVEL_NAMES.getD f.toUsize []) tok = true →
      LogLevelFilter.from_str tok = .ok f) ∧
    (∀ tok : Str, (∀ name ∈ LOG_LEVEL_NAMES, eqIgnoreAsciiCase name tok = false) →
      LogLevelFilter.from_str tok = .error ()) ∧
    (LogLevelFilter.from_str (str "0") = .error () ∧
     LogLevelFilter.from_str (str "1") = .error () ∧
     LogLevelFilter.from_str (str "2") = .error () ∧
     LogLevelFilter.from_str (str "3") = .error () ∧
     LogLevelFilter.from_str (str "4") = .error () ∧
     LogLevelFilter.from_str (str "5") = .error ()) :=
  ⟨fun f => from_str_of_eqIgnore _ f (by cases f <;> decide),
   from_str_of_eqIgnore, from_str_of_no_match, by decide⟩

/-- Witness for the amended C3 at concrete tokens. -/
theorem from_str_accepted_tokens_witness :
    eqIgnoreAsciiCase (LOG_LEVEL_NAMES.getD LogLevelFilter.Debug.toUsize []) (str "dEbUg")
        = true ∧
    LogLevelFilter.from_str (str "dEbUg") = .ok LogLevelFilter.Debug ∧
    LogLevelFilter.from_str (str "verbose") = .error () :=
  ⟨by decide,
   from_str_accepted_tokens.2.1 (str "dEbUg") LogLevelFilter.Debug (by decide),
   from_str_accepted_tokens.2.2.1 (str "verbose") (by decide)⟩



/-- **C2 counterexample.** `"a/b/c"` has exactly two `/` separators (so "at
most two", as the claim allows for normal processing), yet
`parse_logging_spec` discards it with the too-many-slashes diagnostic and
returns the empty directive list instead of parsing the first segment `"a"`
(which on its own yields one directive). -/
theorem parse_spec_two_slash_cx :
    (str "a/b/c").count '/' = 2 ∧
    parse_logging_spec (str "a/b/c") = ([], [.tooManySlashes (str "a/b/c")]) ∧
    (processMods (str "a")).1 = [⟨some (str "a"), .Trace⟩] := by decide

/-- **C2 (amended).** `parse_logging_spec` returns the empty directive list
with the too-many-slashes diagnostic exactly when the input has **two or
more** `/` separators (three or more segments); for every input with at most
one `/` separator, the first `/`-delimited segment is parsed into directives. -/
theorem parse_spec_slash_threshold (spec : Str) :
    (2 ≤ spec.count '/' → parse_logging_spec spec = ([], [.tooManySlashes spec])) ∧
    (spec.count '/' ≤ 1 →
      parse_logging_spec spec = processMods (spec.takeWhile (fun x => x != '/'))) ∧
    (Warning.tooManySlashes spec ∈ (parse_logging_spec spec).2 ∧
        (parse_logging_spec spec).1 = [] ↔ 2 ≤ spec.count '/') := by
  have hp1 : 2 ≤ spec.count '/' → parse_logging_spec spec = ([], [.tooManySlashes spec]) := by
    intro h
    have hlen : 3 ≤ (splitOnChar '/' spec).length := by
      rw [splitOnChar_length]; omega
    obtain ⟨z, hz⟩ : ∃ z, (splitOnChar '/' spec).get? 2 = some z := by
      cases hg : (splitOnChar '/' spec).get? 2 with
      | none => have := List.get?_eq_none.mp hg; omega
      | some z => exact ⟨z, rfl⟩
    rw [List.get?_eq_getElem?] at hz
    simp [parse_logging_spec, hz]
  have hp2 : spec.count '/' ≤ 1 →
      parse_logging_spec spec = processMods (spec.takeWhile (fun x => x != '/')) := by
    intro h
    have hz : (splitOnChar '/' spec).get? 2 = none := by
      apply List.get?_eq_none.mpr
      rw [splitOnChar_length]; omega
    have h0 := splitOnChar_get_zero '/' spec
    rw [List.get?_eq_getElem?] at hz h0
    simp [parse_logging_spec, hz, h0]
  refine ⟨hp1, hp2, ?_, ?_⟩
  · rintro ⟨hmem, -⟩
    by_contra hlt
    rw [hp2 (by omega)] at hmem
    exact tooMany_not_mem_processMods _ _ hmem
  · intro h
    rw [hp1 h]
    simp

/-- Witness for the amended C2 on both sides of the threshold. -/
theorem parse_spec_slash_threshold_witness :
    (2 ≤ (str "a/b/c").count '/' ∧
      parse_logging_spec (str "a/b/c") = ([], [.tooManySlashes (str "a/b/c")])) ∧
    ((str "x,y=info").count '/' ≤ 1 ∧
      parse_logging_spec (str "x,y=info")
        = processMods ((str "x,y=info").takeWhile (fun x => x != '/'))) :=
  ⟨⟨by decide, (parse_spec_slash_threshold (str "a/b/c")).1 (by decide)⟩,
   ⟨by decide, (parse_spec_slash_threshold (str "x,y=info")).2.1 (by decide)⟩⟩



/-- **C4.** The four clause shapes of the module segment: a bare token that
parses as a filter level becomes the catch-all directive at that level; a
bare token that does not parse becomes a named directive at `Trace`
(`LogLevelFilter::max`); `NAME=` with an empty right-hand side also becomes
`{NAME, Trace}`; and `NAME=LEVEL` with a parseable `LEVEL` becomes
`{NAME, LEVEL}`. -/
theorem parse_clause_shapes :
    (∀ (tok : Str) (l : LogLevelFilter), '=' ∉ tok →
      LogLevelFilter.from_str tok = .ok l → parse_clause tok = .dir ⟨none, l⟩) ∧
    (∀ tok : Str, tok ≠ [] → '=' ∉ tok → LogLevelFilter.from_str tok = .error () →
      parse_clause tok = .dir ⟨some tok, .Trace⟩) ∧
    (∀ name : Str, '=' ∉ name → parse_clause (name ++ ['=']) = .dir ⟨some name, .Trace⟩) ∧
    (∀ (name lvl : Str) (l : LogLevelFilter), '=' ∉ name → '=' ∉ lvl → trim lvl = lvl →
      LogLevelFilter.from_str lvl = .ok l →
      parse_clause (name ++ '=' :: lvl) = .dir ⟨some name, l⟩) := by
  refine ⟨?_, ?_, ?_, ?_⟩
  · intro tok l hm hok
    have h0 : tok ≠ [] := by
      rintro rfl
      rw [from_str_nil] at hok
      exact Except.noConfusion hok
    rw [parse_clause_bare tok h0 hm, hok]
  · intro tok h0 hm herr
    rw [parse_clause_bare tok h0 hm, herr]
    rfl
  · intro name hn
    rw [show name ++ ['='] = name ++ '=' :: [] from rfl,
      parse_clause_name_level name [] hn (by simp)]
    rfl
  · intro name lvl l hn hl htrim hok
    have h0 : lvl ≠ [] := by
      rintro rfl
      rw [from_str_nil] at hok
      exact Except.noConfusion hok
    rw [parse_clause_name_level name lvl hn hl, htrim, if_neg h0, hok]

/-- Witness for C4: one concrete clause of each shape. -/
theorem parse_clause_shapes_witness :
    parse_clause (str "info") = .dir ⟨none, .Info⟩ ∧
    parse_clause (str "my_mod") = .dir ⟨some (str "my_mod"), .Trace⟩ ∧
    parse_clause (str "my_mod" ++ ['=']) = .dir ⟨some (str "my_mod"), .Trace⟩ ∧
    parse_clause (str "my_mod" ++ '=' :: str "debug")
        = .dir ⟨some (str "my_mod"), .Debug⟩ :=
  ⟨parse_clause_shapes.1 (str "info") .Info (by decide) (by decide),
   parse_clause_shapes.2.1 (str "my_mod") (by decide) (by decide) (by decide),
   parse_clause_shapes.2.2.1 (str "my_mod") (by decide),
   parse_clause_shapes.2.2.2 (str "my_mod") (str "debug") .Debug (by decide) (by decide)
     (by decide) (by decide)⟩



/-- **C5.** The clause loop is fault-tolerant and order-preserving: the
directive list (and the diagnostic list) is exactly the in-order
`filterMap` over the comma-separated clauses, so a skipped clause never
empties the rest; a `NAME=LEVEL` clause whose level does not parse is skipped
with the invalid-level diagnostic; a clause with more than one `=` is skipped
with the invalid-clause diagnostic; and an empty clause is ignored with no
directive and no diagnostic. -/
theorem clause_errors_are_skipped :
    (∀ m : Str, processMods m =
      ((splitOnChar ',' m).filterMap clauseDirective,
       (splitOnChar ',' m).filterMap clauseWarning)) ∧
    (∀ name lvl : Str, '=' ∉ name → '=' ∉ lvl → trim lvl ≠ [] →
      LogLevelFilter.from_str (trim lvl) = .error () →
      parse_clause (name ++ '=' :: lvl) = .bad (.invalidLevel (trim lvl))) ∧
    (∀ s : Str, 2 ≤ s.count '=' → parse_clause s = .bad (.invalidClause s)) ∧
    parse_clause [] = .empty ∧ clauseDirective [] = none ∧ clauseWarning [] = none := by
  refine ⟨?_, ?_, parse_clause_multi_eq, rfl, rfl, rfl⟩
  · intro m
    exact processClauses_eq_filterMap (splitOnChar ',' m)
  · intro name lvl hn hl hne herr
    rw [parse_clause_name_level name lvl hn hl, if_neg hne, herr]

/-- Witness for C5: a bad level and a doubled `=` are skipped with their
diagnostics, and a mixed spec keeps the good clauses in input order. -/
theorem clause_errors_are_skipped_witness :
    parse_clause (str "b" ++ '=' :: str "nope") = .bad (.invalidLevel (trim (str "nope"))) ∧
    parse_clause (str "a=b=c") = .bad (.invalidClause (str "a=b=c")) ∧
    processMods (str "x=info,,y=nope,z")
      = ([⟨some (str "x"), .Info⟩, ⟨some (str "z"), .Trace⟩],
         [.invalidLevel (str "nope")]) :=
  ⟨clause_errors_are_skipped.2.1 (str "b") (str "nope") (by decide) (by decide)
     (by decide) (by decide),
   clause_errors_are_skipped.2.2.1 (str "a=b=c") (by decide),
   by decide⟩

/-- **C9.** Only the level side of a `NAME=LEVEL` clause is trimmed: a clause
`NAME= t ` (whitespace around the level) still parses the level and keeps the
name exactly; a clause `NAME = t` keeps the trailing space inside the name
`"NAME "`; and a bare clause is not trimmed at all, so `" error"` does not
parse as a level and becomes the module-name directive at `Trace`. -/
theorem parse_clause_trims_level_side_only :
    (∀ (name t : Str) (l : LogLevelFilter), '=' ∉ name → '=' ∉ t → trim t = t →
      LogLevelFilter.from_str t = .ok l →
      parse_clause (name ++ '=' :: (' ' :: (t ++ [' ']))) = .dir ⟨some name, l⟩) ∧
    (∀ (name t : Str) (l : LogLevelFilter), '=' ∉ name → '=' ∉ t → trim t = t →
      LogLevelFilter.from_str t = .ok l →
      parse_clause ((name ++ [' ']) ++ '=' :: (' ' :: t))
        = .dir ⟨some (name ++ [' ']), l⟩) ∧
    parse_clause (str " error") = .dir ⟨some (str " error"), .Trace⟩ := by
  refine ⟨?_, ?_, by decide⟩
  · intro name t l hn ht htrim hok
    have h0 : t ≠ [] := by
      rintro rfl
      rw [from_str_nil] at hok
      exact Except.noConfusion hok
    have hlv : ('=' : Char) ∉ ' ' :: (t ++ [' ']) := by
      simp [ht]
    rw [parse_clause_name_level name _ hn hlv, trim_sandwich t htrim,
      if_neg h0, hok]
  · intro name t l hn ht htrim hok
    have h0 : t ≠ [] := by
      rintro rfl
      rw [from_str_nil] at hok
      exact Except.noConfusion hok
    have hn' : ('=' : Char) ∉ name ++ [' '] := by simp [hn]
    have hlv : ('=' : Char) ∉ ' ' :: t := by simp [ht]
    rw [parse_clause_name_level (name ++ [' ']) (' ' :: t) hn' hlv,
      trim_cons_space, htrim, if_neg h0, hok]

/-- Witness for C9 at a concrete name and level token. -/
theorem parse_clause_trims_level_side_only_witness :
    parse_clause (str "NAME" ++ '=' :: (' ' :: (str "debug" ++ [' '])))
      = .dir ⟨some (str "NAME"), .Debug⟩ ∧
    parse_clause ((str "NAME" ++ [' ']) ++ '=' :: (' ' :: str "debug"))
      = .dir ⟨some (str "NAME" ++ [' ']), .Debug⟩ :=
  ⟨parse_clause_trims_level_side_only.1 (str "NAME") (str "debug") .Debug
     (by decide) (by decide) (by decide) (by decide),
   parse_clause_trims_level_side_only.2.1 (str "NAME") (str "debug") .Debug
     (by decide) (by decide) (by decide) (by decide)⟩


end Sozu
